import Mathlib

set_option maxRecDepth 8000

/-!
# Verification of the clapety-clap audio tagging core

Shallow embedding of `src/clapety-clap-rs/src/lib.rs` and proofs about it.

Modelling conventions:
* `f32` sample and similarity values are modelled by exact arithmetic
  (`ℚ` for PCM samples, `ℝ` where transcendental functions occur);
  `as usize` casts of non-negative values become `Int.toNat ∘ Int.floor`
  (which, like Rust's saturating cast, sends negatives to `0`).
* The `while` loop of `log_mel_spectrogram` is embedded with explicit fuel;
  `none` means the loop never exits.
* Filesystem state is passed explicitly as a record of pure functions.
-/

namespace Clapety

/-! ## Resampler: `linear_resample` (lib.rs lines 176-195) -/

/-- Embedding of `linear_resample(input, src_sr, dst_sr)`.
`ratio = dst/src`, `out_len = ceil(len * ratio)`, and each output index `i`
reads position `i / ratio`, blending the two neighbouring samples, or the
last available sample when the upper neighbour is out of range.
(`input[idx0]` is modelled by `getD _ 0`; in-range accesses coincide.) -/
def linear_resample (input : List ℚ) (src_sr dst_sr : ℕ) : List ℚ :=
  if src_sr = dst_sr ∨ input = [] then input
  else
    let r : ℚ := (dst_sr : ℚ) / (src_sr : ℚ)
    let out_len : ℕ := Nat.ceil ((input.length : ℚ) * r)
    (List.range out_len).map (fun (i : ℕ) =>
      let src_pos : ℚ := (i : ℚ) / r
      let idx0 : ℕ := (Int.floor src_pos).toNat
      if input.length ≤ idx0 + 1 then input.getD idx0 0
      else
        let frac : ℚ := src_pos - (idx0 : ℚ)
        input.getD idx0 0 * (1 - frac) + input.getD (idx0 + 1) 0 * frac)

/-- C1: if the source rate equals the target rate or the input buffer is
empty, `linear_resample` returns the input unchanged. -/
theorem linear_resample_identity (input : List ℚ) (src_sr dst_sr : ℕ)
    (h : src_sr = dst_sr ∨ input = []) :
    linear_resample input src_sr dst_sr = input := by
  unfold linear_resample
  simp [h]

/-- Witness for C1 at concrete inputs: equal rates on a non-empty buffer,
and an empty buffer with distinct rates. -/
theorem linear_resample_identity_witness :
    linear_resample [1, 2, 3] 44100 44100 = [1, 2, 3] ∧
      linear_resample [] 44100 48000 = [] :=
  ⟨linear_resample_identity [1, 2, 3] 44100 44100 (Or.inl rfl),
   linear_resample_identity [] 44100 48000 (Or.inr rfl)⟩

/-- C2: for a non-empty input and distinct positive rates, the output length
is exactly `ceil(len * dst / src)`. -/
theorem linear_resample_length (input : List ℚ) (src_sr dst_sr : ℕ)
    (hne : input ≠ []) (hsd : src_sr ≠ dst_sr)
    (hs : 0 < src_sr) (hd : 0 < dst_sr) :
    (linear_resample input src_sr dst_sr).length =
      Nat.ceil (((input.length : ℚ) * (dst_sr : ℚ)) / (src_sr : ℚ)) := by
  unfold linear_resample
  rw [if_neg (by push_neg; exact ⟨hsd, hne⟩)]
  rw [List.length_map, List.length_range, mul_div_assoc]

/-- Witness for C2: three samples, 2 Hz to 3 Hz, output length `⌈9/2⌉ = 5`. -/
theorem linear_resample_length_witness :
    (linear_resample [1, 2, 3] 2 3).length =
      Nat.ceil ((((List.length [(1 : ℚ), 2, 3] : ℕ) : ℚ) * (3 : ℚ)) / (2 : ℚ)) :=
  linear_resample_length [1, 2, 3] 2 3 (by decide) (by decide)
    (by decide) (by decide)

/-! ## Spectrogram extractor: `log_mel_spectrogram` (lib.rs lines 199-289) -/

/-- Embedding of `(sample_rate as f32 * 0.01) as usize` (lib.rs line 243):
the 10 ms hop length, truncated toward zero. -/
def melHop (sample_rate : ℕ) : ℕ :=
  (Int.floor ((sample_rate : ℚ) * 0.01)).toNat

/-- The Hann window `0.5 - 0.5*cos(2*pi*i/win_len)` (lib.rs lines 250-252). -/
noncomputable def hannWindow (win_len : ℕ) : List ℝ :=
  (List.range win_len).map (fun (i : ℕ) =>
    0.5 - 0.5 * Real.cos (2 * Real.pi * (i : ℝ) / (win_len : ℝ)))

/-- `hz_to_mel` (lib.rs lines 206-208). -/
noncomputable def hz_to_mel (hz : ℝ) : ℝ :=
  2595 * Real.logb 10 (1 + hz / 700)

/-- `mel_to_hz` (lib.rs lines 209-211). -/
noncomputable def mel_to_hz (m : ℝ) : ℝ :=
  700 * ((10 : ℝ) ^ (m / 2595) - 1)

/-- Embedding of `build_mel_filterbank` (lib.rs lines 199-239).
The Rust code allocates `n_mels` zero rows of length `n_fft/2 + 1` and fills
row `m-1` with a rising ramp on `[bin[m-1], bin[m])` (when `bin[m-1] < bin[m]`)
and a falling ramp on `[bin[m], bin[m+1])` (when `bin[m] < bin[m+1]`); the
two index ranges are disjoint, so each row is the pure function below. -/
noncomputable def build_mel_filterbank (sr : ℝ) (n_fft n_mels : ℕ)
    (fmin fmax : ℝ) : List (List ℝ) :=
  let mel_min := hz_to_mel fmin
  let mel_max := hz_to_mel fmax
  let mel_points : List ℝ := (List.range (n_mels + 2)).map
    (fun (i : ℕ) => mel_min + (i : ℝ) * (mel_max - mel_min) / ((n_mels + 1 : ℕ) : ℝ))
  let hz_points : List ℝ := mel_points.map mel_to_hz
  let bin : List ℕ := hz_points.map
    (fun hz => (Int.floor (((n_fft + 1 : ℕ) : ℝ) * hz / sr)).toNat)
  (List.range n_mels).map (fun (m0 : ℕ) =>
    let fmm := bin.getD m0 0
    let fm := bin.getD (m0 + 1) 0
    let fmp := bin.getD (m0 + 2) 0
    (List.range (n_fft / 2 + 1)).map (fun (k : ℕ) =>
      if fmm ≤ k ∧ k < fm ∧ fmm < fm then
        ((k - fmm : ℕ) : ℝ) / ((fm - fmm : ℕ) : ℝ)
      else if fm ≤ k ∧ k < fmp ∧ fm < fmp then
        ((fmp - k : ℕ) : ℝ) / ((fmp - fm : ℕ) : ℝ)
      else 0))

/-- The forward (unnormalised) discrete Fourier transform computed by
`rustfft`'s `plan_fft_forward`/`process`: `X[k] = Σ_j x[j]·e^(-2πi·jk/n)`. -/
noncomputable def dftC (x : List ℂ) : List ℂ :=
  (List.range x.length).map (fun (k : ℕ) =>
    ∑ j ∈ Finset.range x.length,
      x.getD j 0 *
        Complex.exp (-(2 * (Real.pi : ℂ) * Complex.I * (j : ℂ) * (k : ℂ)) / (x.length : ℂ)))

/-- One iteration of the frame loop body (lib.rs lines 266-285): multiply the
frame by the Hann window, resize to `n_fft` complex samples, run the FFT,
take the power of the first `n_fft/2 + 1` bins, and emit one log mel energy
per filterbank row. -/
noncomputable def frameFeatures (n_fft : ℕ) (window : List ℝ)
    (mel_fb : List (List ℝ)) (frame : List ℚ) : List ℝ :=
  let buf : List ℂ :=
    List.zipWith (fun (s : ℚ) (w : ℝ) => ((s : ℝ) * w : ℂ)) frame window
  let buf' : List ℂ := buf.take n_fft ++ List.replicate (n_fft - buf.length) 0
  let spec := dftC buf'
  let power : List ℝ := (spec.take (n_fft / 2 + 1)).map Complex.normSq
  mel_fb.map (fun row =>
    Real.log ((List.zipWith (fun (w p : ℝ) => w * p) row power).sum + 1e-10))

/-- Fuel-indexed embedding of the frame `while` loop (lib.rs lines 263-288):
`while idx + win_len <= pcm.len() { emit frame; idx += hop }`.
`none` means the fuel ran out before the loop condition failed; the lemmas
below show that with `1 ≤ hop` fuel `pcm.length + 1` always suffices, and
that with `hop = 0` and a full window available no amount of fuel does
(the loop never exits). -/
noncomputable def melLoop (pcm : List ℚ) (win_len hop n_fft : ℕ)
    (window : List ℝ) (mel_fb : List (List ℝ)) : ℕ → ℕ → Option (List ℝ)
  | _, 0 => none
  | idx, fuel + 1 =>
    if idx + win_len ≤ pcm.length then
      match melLoop pcm win_len hop n_fft window mel_fb (idx + hop) fuel with
      | none => none
      | some rest =>
          some (frameFeatures n_fft window mel_fb ((pcm.drop idx).take win_len) ++ rest)
    else some []

/-- Embedding of `log_mel_spectrogram(pcm, sample_rate)` (lib.rs lines 241-289):
`n_fft = 1024`, `hop = (sample_rate * 0.01) as usize`, `win_len = n_fft`,
`n_mels = 64`, `fmin = 50`, `fmax = sample_rate/2 - 100`; an empty input
short-circuits to the empty spectrogram before any window is built. -/
noncomputable def log_mel_spectrogram (pcm : List ℚ) (sample_rate : ℕ) :
    Option (List ℝ) :=
  if pcm = [] then some []
  else
    melLoop pcm 1024 (melHop sample_rate) 1024 (hannWindow 1024)
      (build_mel_filterbank (sample_rate : ℝ) 1024 64 50 ((sample_rate : ℝ) / 2 - 100))
      0 (pcm.length + 1)

/-- The number of loop iterations that emit a frame, starting at `idx`. -/
def frameCount (len win_len hop idx : ℕ) : ℕ :=
  if idx + win_len ≤ len then (len - win_len - idx) / hop + 1 else 0

theorem frameFeatures_length (n_fft : ℕ) (window : List ℝ)
    (mel_fb : List (List ℝ)) (frame : List ℚ) :
    (frameFeatures n_fft window mel_fb frame).length = mel_fb.length := by
  unfold frameFeatures
  rw [List.length_map]

theorem melLoop_some_of_hop_pos (pcm : List ℚ) (win_len hop n_fft : ℕ)
    (window : List ℝ) (mel_fb : List (List ℝ))
    (hwin : 1 ≤ win_len) (hhop : 1 ≤ hop) :
    ∀ fuel idx, pcm.length + 1 ≤ fuel + idx → 1 ≤ fuel →
      ∃ out, melLoop pcm win_len hop n_fft window mel_fb idx fuel = some out ∧
        out.length = mel_fb.length * frameCount pcm.length win_len hop idx := by
  intro fuel
  induction fuel with
  | zero => intro idx _ hf; omega
  | succ fuel ih =>
      intro idx hle _
      by_cases hcond : idx + win_len ≤ pcm.length
      · have hf1 : 1 ≤ fuel := by omega
        have hle' : pcm.length + 1 ≤ fuel + (idx + hop) := by omega
        obtain ⟨rest, hrest, hlen⟩ := ih (idx + hop) hle' hf1
        refine ⟨frameFeatures n_fft window mel_fb ((pcm.drop idx).take win_len) ++ rest,
          ?_, ?_⟩
        · rw [melLoop, if_pos hcond, hrest]
        · rw [List.length_append, frameFeatures_length, hlen]
          have hcount : frameCount pcm.length win_len hop idx =
              frameCount pcm.length win_len hop (idx + hop) + 1 := by
            unfold frameCount
            rw [if_pos hcond]
            by_cases h2 : idx + hop + win_len ≤ pcm.length
            · rw [if_pos h2]
              have hsub : hop ≤ pcm.length - win_len - idx := by omega
              rw [Nat.div_eq_sub_div hhop hsub]
              have : pcm.length - win_len - idx - hop =
                  pcm.length - win_len - (idx + hop) := by omega
              rw [this]
            · rw [if_neg h2]
              have hlt : pcm.length - win_len - idx < hop := by omega
              rw [Nat.div_eq_of_lt hlt]
          rw [hcount, Nat.mul_add, Nat.mul_one, Nat.add_comm]
      · exact ⟨[], by rw [melLoop, if_neg hcond], by
          simp [frameCount, hcond]⟩

theorem melLoop_none_of_hop_zero (pcm : List ℚ) (win_len n_fft : ℕ)
    (window : List ℝ) (mel_fb : List (List ℝ)) :
    ∀ fuel idx, idx + win_len ≤ pcm.length →
      melLoop pcm win_len 0 n_fft window mel_fb idx fuel = none := by
  intro fuel
  induction fuel with
  | zero => intro idx _; rw [melLoop]
  | succ fuel ih =>
      intro idx hcond
      rw [melLoop, if_pos hcond, Nat.add_zero, ih idx hcond]

/-- The truncated 10 ms hop is natural division of the rate by 100. -/
theorem melHop_eq_div (sample_rate : ℕ) : melHop sample_rate = sample_rate / 100 := by
  unfold melHop
  rw [Int.floor_toNat,
    show (sample_rate : ℚ) * 0.01 = (sample_rate : ℚ) / ((100 : ℕ) : ℚ) by push_cast; ring,
    Nat.floor_div_nat, Nat.floor_natCast]

theorem melHop_pos_iff (sample_rate : ℕ) :
    1 ≤ melHop sample_rate ↔ 100 ≤ sample_rate := by
  rw [melHop_eq_div]
  omega

theorem mel_fb_length (sr : ℝ) (n_fft n_mels : ℕ) (fmin fmax : ℝ) :
    (build_mel_filterbank sr n_fft n_mels fmin fmax).length = n_mels := by
  unfold build_mel_filterbank
  rw [List.length_map, List.length_range]

/-- C4 counterexample: at `sample_rate = 150` the code computes
`(150 * 0.01) as usize = 1`, whereas `round(150 × 0.01) = round(1.5) = 2`. -/
theorem melHop_round_counterexample :
    ((melHop 150 : ℕ) : ℤ) ≠ round ((150 : ℚ) * 0.01) := by
  rw [melHop_eq_div]
  have h2 : round ((150 : ℚ) * 0.01) = 2 := by
    rw [round_eq]
    norm_num
  rw [h2]
  norm_num

/-- C4 (amended): the hop length is `sample_rate × 0.01` truncated toward
zero (the greatest integer below), not rounded to the nearest integer. -/
theorem melHop_truncates (sample_rate : ℕ) :
    ((melHop sample_rate : ℚ) ≤ (sample_rate : ℚ) * 0.01 ∧
      (sample_rate : ℚ) * 0.01 < (melHop sample_rate : ℚ) + 1) := by
  have hx : (0 : ℚ) ≤ (sample_rate : ℚ) * 0.01 := by positivity
  have hfl : melHop sample_rate = Nat.floor ((sample_rate : ℚ) * 0.01) := by
    unfold melHop
    rw [Int.floor_toNat]
  constructor
  · rw [hfl]
    exact Nat.floor_le hx
  · rw [hfl]
    exact_mod_cast Nat.lt_floor_add_one ((sample_rate : ℚ) * 0.01)

/-- C3 (amended): when the hop is positive (`sample_rate ≥ 100`), the
spectrogram loop terminates and the flat output holds exactly `n_mels = 64`
log energies per frame, with frame count
`(len(pcm) − window_length)/hop + 1` if `len(pcm) ≥ window_length = 1024`
and `0` otherwise; an empty PCM input yields the empty spectrogram (for
every sample rate), not an error. -/
theorem log_mel_spectrogram_shape (pcm : List ℚ) (sample_rate : ℕ) :
    (100 ≤ sample_rate →
      ∃ out, log_mel_spectrogram pcm sample_rate = some out ∧
        out.length = 64 *
          (if 1024 ≤ pcm.length then (pcm.length - 1024) / melHop sample_rate + 1
           else 0)) ∧
    (pcm = [] → log_mel_spectrogram pcm sample_rate = some []) := by
  constructor
  · intro hsr
    by_cases hemp : pcm = []
    · refine ⟨[], ?_, ?_⟩
      · unfold log_mel_spectrogram
        rw [if_pos hemp]
      · rw [hemp]
        simp
    · obtain ⟨out, hout, hlen⟩ :=
        melLoop_some_of_hop_pos pcm 1024 (melHop sample_rate) 1024 (hannWindow 1024)
          (build_mel_filterbank (sample_rate : ℝ) 1024 64 50 ((sample_rate : ℝ) / 2 - 100))
          (by norm_num) ((melHop_pos_iff sample_rate).mpr hsr)
          (pcm.length + 1) 0 (by omega) (by omega)
      refine ⟨out, ?_, ?_⟩
      · unfold log_mel_spectrogram
        rw [if_neg hemp]
        exact hout
      · rw [hlen, mel_fb_length]
        unfold frameCount
        simp only [Nat.zero_add, Nat.sub_zero]
  · intro hemp
    unfold log_mel_spectrogram
    rw [if_pos hemp]

/-- C3 counterexample: at `sample_rate = 50` the hop truncates to `0`, and on
a PCM buffer holding a full window the frame loop never exits: no spectrogram
with the claimed frame count is produced. -/
theorem log_mel_spectrogram_diverges_at_50 :
    log_mel_spectrogram (List.replicate 1024 (0 : ℚ)) 50 = none := by
  have hne : List.replicate 1024 (0 : ℚ) ≠ [] := by simp
  unfold log_mel_spectrogram
  rw [if_neg hne]
  have h0 : melHop 50 = 0 := by rw [melHop_eq_div]
  rw [h0]
  exact melLoop_none_of_hop_zero _ _ _ _ _ _ 0 (by simp)

/-- Witness for C3 (amended) at a 48 kHz rate with 2048 zero samples, plus the
empty-input case at a sub-100 rate. -/
theorem log_mel_spectrogram_shape_witness :
    (∃ out, log_mel_spectrogram (List.replicate 2048 (0 : ℚ)) 48000 = some out ∧
      out.length = 64 *
        (if 1024 ≤ (List.replicate 2048 (0 : ℚ)).length then
          ((List.replicate 2048 (0 : ℚ)).length - 1024) / melHop 48000 + 1
         else 0)) ∧
    log_mel_spectrogram ([] : List ℚ) 50 = some [] :=
  ⟨(log_mel_spectrogram_shape (List.replicate 2048 (0 : ℚ)) 48000).1 (by norm_num),
   (log_mel_spectrogram_shape [] 50).2 rfl⟩

/-- C10: the frame loop of `log_mel_spectrogram` terminates for every PCM
input whenever the computed hop is at least 1 (`sample_rate ≥ 100`); when
`sample_rate < 100` the hop truncates to `0` and, as soon as one full window
fits (`len(pcm) ≥ 1024`), the loop never advances: no fuel bound makes it
exit, and the function does not terminate. -/
theorem log_mel_spectrogram_termination (pcm : List ℚ) (sample_rate : ℕ) :
    (100 ≤ sample_rate →
      ∃ out, log_mel_spectrogram pcm sample_rate = some out) ∧
    (sample_rate < 100 → 1024 ≤ pcm.length →
      log_mel_spectrogram pcm sample_rate = none ∧
      ∀ fuel, melLoop pcm 1024 (melHop sample_rate) 1024 (hannWindow 1024)
          (build_mel_filterbank (sample_rate : ℝ) 1024 64 50
            ((sample_rate : ℝ) / 2 - 100)) 0 fuel = none) := by
  constructor
  · intro hsr
    by_cases hemp : pcm = []
    · refine ⟨[], ?_⟩
      unfold log_mel_spectrogram
      rw [if_pos hemp]
    · obtain ⟨out, hout, -⟩ :=
        melLoop_some_of_hop_pos pcm 1024 (melHop sample_rate) 1024 (hannWindow 1024)
          (build_mel_filterbank (sample_rate : ℝ) 1024 64 50 ((sample_rate : ℝ) / 2 - 100))
          (by norm_num) ((melHop_pos_iff sample_rate).mpr hsr)
          (pcm.length + 1) 0 (by omega) (by omega)
      refine ⟨out, ?_⟩
      unfold log_mel_spectrogram
      rw [if_neg hemp]
      exact hout
  · intro hsr hlen
    have hne : pcm ≠ [] := by
      intro h
      rw [h] at hlen
      simp at hlen
    have h0 : melHop sample_rate = 0 := by
      rw [melHop_eq_div]
      omega
    constructor
    · unfold log_mel_spectrogram
      rw [if_neg hne, h0]
      exact melLoop_none_of_hop_zero _ _ _ _ _ _ 0 (by omega)
    · intro fuel
      rw [h0]
      exact melLoop_none_of_hop_zero _ _ _ _ _ fuel 0 (by omega)

/-- Witness for C10: termination at 48 kHz and divergence at 99 Hz, both on a
single full window of zero samples. -/
theorem log_mel_spectrogram_termination_witness :
    (∃ out, log_mel_spectrogram (List.replicate 1024 (0 : ℚ)) 48000 = some out) ∧
    (log_mel_spectrogram (List.replicate 1024 (0 : ℚ)) 99 = none ∧
      ∀ fuel, melLoop (List.replicate 1024 (0 : ℚ)) 1024 (melHop 99) 1024
          (hannWindow 1024)
          (build_mel_filterbank ((99 : ℕ) : ℝ) 1024 64 50 (((99 : ℕ) : ℝ) / 2 - 100))
          0 fuel = none) :=
  ⟨(log_mel_spectrogram_termination (List.replicate 1024 (0 : ℚ)) 48000).1 (by norm_num),
   (log_mel_spectrogram_termination (List.replicate 1024 (0 : ℚ)) 99).2 (by norm_num)
     (by simp)⟩

/-! ## Cosine similarity and the tag ranker (lib.rs lines 16-37, 53-69,
671-763) -/

/-- The built-in candidate vocabulary `DEFAULT_TAGS` (lib.rs lines 16-37). -/
def DEFAULT_TAGS : List String :=
  ["speech", "male voice", "female voice", "music", "instrumental", "drums",
   "guitar", "piano", "bass", "synth", "loop", "ambient", "crowd", "applause",
   "footsteps", "rain", "wind", "birdsong", "engine", "noise"]

/-- `InferenceConfig` (lib.rs lines 53-61). -/
structure InferenceConfig where
  top_k : ℕ

/-- `FileCaption` (lib.rs lines 63-69); the file path is kept as a string. -/
structure FileCaption where
  file : String
  caption : String
  tags : List String
  model : String

/-- The `EmbeddingBackend` trait (lib.rs lines 72-76): a backend is a record
of its three capabilities; bytes are modelled as naturals. -/
structure BackendModel where
  embed_audio : List ℕ → List ℝ
  embed_text : List String → List (List ℝ)
  model_name : String

/-- `DummyBackend` (lib.rs lines 671-701): `embed_audio` ignores its input
and returns `[sin 0, sin 1, …, sin 63]` (`dim = 64`); `embed_text` returns
`[cos(i+0), …, cos(i+63)]` for the `i`-th input string. The seeded `rng`
field is never used by either method. -/
noncomputable def dummyBackend : BackendModel where
  embed_audio := fun _ => (List.range 64).map (fun (i : ℕ) => Real.sin (i : ℝ))
  embed_text := fun texts => texts.enum.map
    (fun (p : ℕ × String) =>
      (List.range 64).map (fun (j : ℕ) => Real.cos ((p.1 + j : ℕ) : ℝ)))
  model_name := "dummy-clap"

/-- `cosine(a, b)` (lib.rs lines 754-763): `dot / (na * nb)` guarded to `0`
when either square-root norm is zero. -/
noncomputable def cosine (a b : List ℝ) : ℝ :=
  let dot : ℝ := (List.zipWith (fun (x y : ℝ) => x * y) a b).sum
  let na : ℝ := Real.sqrt ((a.map (fun x => x * x)).sum)
  let nb : ℝ := Real.sqrt ((b.map (fun x => x * x)).sum)
  if na = 0 ∨ nb = 0 then 0 else dot / (na * nb)

/-- The similarity list of `infer_file` (lib.rs lines 726-730):
`(i, cosine(audio_emb, text_embs[i]))` in enumeration order. -/
noncomputable def simsOf (audio_emb : List ℝ) (text_embs : List (List ℝ)) :
    List (ℕ × ℝ) :=
  text_embs.enum.map (fun (p : ℕ × List ℝ) => (p.1, cosine audio_emb p.2))

/-- The sort of `infer_file` (lib.rs line 731):
`sims.sort_by(|a, b| b.1.partial_cmp(&a.1).unwrap())` — Rust's stable
`sort_by`, modelled by stable `mergeSort`, with `a ≤ b` exactly when
`b`'s similarity is at most `a`'s (descending by similarity). -/
noncomputable def sortSims (sims : List (ℕ × ℝ)) : List (ℕ × ℝ) :=
  sims.mergeSort (fun a b => decide (b.2 ≤ a.2))

/-- The truncation and tag lookup of `infer_file` (lib.rs lines 732-737):
`top_k = cfg.top_k.min(sims.len())`, then the first `top_k` indices are
mapped through the vocabulary. -/
def topTags (sorted : List (ℕ × ℝ)) (vocab : List String) (top_k : ℕ) :
    List String :=
  (sorted.take (min top_k sorted.length)).map
    (fun (p : ℕ × ℝ) => vocab.getD p.1 "")

/-- `TagInferencer::infer_file` (lib.rs lines 721-745) from the point where
the file bytes are in hand (the `File::open`/`read_to_end` I/O is the
caller's ambient state, passed here as `bytes`). -/
noncomputable def infer_file (backend : BackendModel) (file : String)
    (bytes : List ℕ) (cfg : InferenceConfig) : FileCaption :=
  let audio_emb := backend.embed_audio bytes
  let text_embs := backend.embed_text DEFAULT_TAGS
  let tags := topTags (sortSims (simsOf audio_emb text_embs)) DEFAULT_TAGS cfg.top_k
  { file := file
    caption := String.intercalate ", " tags
    tags := tags
    model := backend.model_name }

/-! ## File discovery: `expand_audio_files` and `infer_paths`
(lib.rs lines 710-720, 775-810) -/

/-- `SUPPORTED_EXTS` (lib.rs line 39). -/
def SUPPORTED_EXTS : List String :=
  [".wav", ".mp3", ".flac", ".ogg", ".m4a", ".webm"]

/-- Model of `Path::extension`: the part of the final component after its
last dot, none when there is no dot or the name starts with its only dot. -/
def extensionOf (p : String) : Option String :=
  let name := (p.splitOn "/").getLastD p
  let parts := name.splitOn "."
  if 2 ≤ parts.length ∧ parts.headD "" ≠ "" then some (parts.getLastD "")
  else none

/-- `is_supported` (lib.rs lines 802-810): case-insensitive allowlist match
of `"." + extension`. -/
def is_supported (p : String) : Bool :=
  match extensionOf p with
  | none => false
  | some e => SUPPORTED_EXTS.contains ("." ++ e.toLower)

/-- The filesystem state `expand_audio_files` consults, as a record of pure
functions: per-path file/directory tests, the files `WalkDir` yields under a
directory (in walk order), and the byte contents used by `infer_file`. -/
structure FS where
  isFile : String → Bool
  isDir : String → Bool
  walkFiles : String → List String
  contents : String → List ℕ

/-- `expand_audio_files` (lib.rs lines 775-800): walk the inputs in order;
a file contributes itself when supported, a directory contributes its walked
files filtered by `is_supported`, and any path that is neither makes the
whole call return the `"Path not found"` error. -/
def expand_audio_files (fs : FS) : List String → Except String (List String)
  | [] => Except.ok []
  | p :: rest =>
    if fs.isFile p then
      match expand_audio_files fs rest with
      | Except.error e => Except.error e
      | Except.ok out =>
          Except.ok ((if is_supported p then [p] else []) ++ out)
    else if fs.isDir p then
      match expand_audio_files fs rest with
      | Except.error e => Except.error e
      | Except.ok out => Except.ok ((fs.walkFiles p).filter is_supported ++ out)
    else Except.error ("Path not found: " ++ p)

/-- `TagInferencer::infer_paths` (lib.rs lines 710-720): expand the input
paths, then run `infer_file` on every discovered file. -/
noncomputable def infer_paths (fs : FS) (backend : BackendModel)
    (paths : List String) (cfg : InferenceConfig) :
    Except String (List FileCaption) :=
  (expand_audio_files fs paths).map
    (fun files => files.map (fun f => infer_file backend f (fs.contents f) cfg))

/-! ## Theorems about cosine, the dummy backend, and `top_k = 0` -/

/-- The spec's dot product `dot(a,b)`, written as an indexed sum. -/
noncomputable def dotSpec (a b : List ℝ) : ℝ :=
  ∑ i ∈ Finset.range (min a.length b.length), a.getD i 0 * b.getD i 0

/-- The spec's Euclidean norm `‖a‖`, written as an indexed sum. -/
noncomputable def normSpec (a : List ℝ) : ℝ :=
  Real.sqrt (∑ i ∈ Finset.range a.length, a.getD i 0 ^ 2)

theorem sum_map_sq (a : List ℝ) :
    ((a.map (fun x => x * x)).sum) = ∑ i ∈ Finset.range a.length, a.getD i 0 ^ 2 := by
  induction a with
  | nil => simp
  | cons x xs ih =>
      rw [List.map_cons, List.sum_cons, ih, List.length_cons,
        Finset.sum_range_succ']
      simp [pow_two]
      ring

theorem sum_zipWith_mul (a : List ℝ) : ∀ b : List ℝ,
    (List.zipWith (fun (x y : ℝ) => x * y) a b).sum =
      ∑ i ∈ Finset.range (min a.length b.length), a.getD i 0 * b.getD i 0 := by
  induction a with
  | nil => intro b; simp
  | cons x xs ih =>
      intro b
      cases b with
      | nil => simp
      | cons y ys =>
          rw [List.zipWith_cons_cons, List.sum_cons, ih ys, List.length_cons,
            List.length_cons, Nat.succ_min_succ, Finset.sum_range_succ']
          simp
          ring

/-- C6: the ranker's cosine similarity is `dot(a,b)/(‖a‖·‖b‖)` whenever both
norms are non-zero, and exactly `0` when either norm is zero — no division
by zero and no failure. -/
theorem cosine_eq_spec (a b : List ℝ) :
    (normSpec a ≠ 0 → normSpec b ≠ 0 →
      cosine a b = dotSpec a b / (normSpec a * normSpec b)) ∧
    ((normSpec a = 0 ∨ normSpec b = 0) → cosine a b = 0) := by
  have hna : Real.sqrt ((a.map (fun x => x * x)).sum) = normSpec a := by
    rw [normSpec, sum_map_sq]
  have hnb : Real.sqrt ((b.map (fun x => x * x)).sum) = normSpec b := by
    rw [normSpec, sum_map_sq]
  have hdot : (List.zipWith (fun (x y : ℝ) => x * y) a b).sum = dotSpec a b := by
    rw [dotSpec, sum_zipWith_mul]
  constructor
  · intro ha hb
    unfold cosine
    rw [hna, hnb, hdot, if_neg (by push_neg; exact ⟨ha, hb⟩)]
  · intro h
    unfold cosine
    rw [hna, hnb, if_pos h]

/-- Witness for C6: both branches at concrete vectors — `[1]` against itself
(norms non-zero), and `[0]` against `[1]` (zero norm forces similarity 0). -/
theorem cosine_eq_spec_witness :
    (cosine [(1 : ℝ)] [(1 : ℝ)] =
      dotSpec [(1 : ℝ)] [(1 : ℝ)] / (normSpec [(1 : ℝ)] * normSpec [(1 : ℝ)])) ∧
    (normSpec [(0 : ℝ)] = 0 ∧ cosine [(0 : ℝ)] [(1 : ℝ)] = 0) := by
  have h1 : normSpec [(1 : ℝ)] = 1 := by
    simp [normSpec]
  have h0 : normSpec [(0 : ℝ)] = 0 := by
    simp [normSpec]
  exact ⟨(cosine_eq_spec [(1 : ℝ)] [(1 : ℝ)]).1 (by rw [h1]; norm_num)
      (by rw [h1]; norm_num),
    h0, (cosine_eq_spec [(0 : ℝ)] [(1 : ℝ)]).2 (Or.inl h0)⟩

/-- C7 counterexample: the dummy backend's `embed_audio` on empty input is
not the zero vector — its entry at index 1 is `sin 1 ≠ 0`. -/
theorem dummy_embed_audio_counterexample :
    dummyBackend.embed_audio [] ≠ List.replicate 64 (0 : ℝ) := by
  intro h
  have h1 : (dummyBackend.embed_audio []).getD 1 0 = Real.sin 1 := by
    simp [dummyBackend]
  have h2 : (List.replicate 64 (0 : ℝ)).getD 1 0 = 0 := by
    simp
  rw [h, h2] at h1
  have hpos : 0 < Real.sin 1 :=
    Real.sin_pos_of_pos_of_lt_pi (by norm_num) (by linarith [Real.pi_gt_three])
  linarith [h1.symm.le]

/-- C7 (amended): for every byte input — empty or not — the dummy backend's
`embed_audio` returns the same fixed deterministic vector of length
`D = 64` (it never fails), but that vector is `(sin i)_{i<64}`, not the
zero vector. -/
theorem dummy_embed_audio_fixed (bytes : List ℕ) :
    (dummyBackend.embed_audio bytes).length = 64 ∧
    dummyBackend.embed_audio bytes = dummyBackend.embed_audio [] := by
  constructor
  · simp [dummyBackend]
  · rfl

/-- C8: a requested `top_k` of 0 yields a result with an empty tag list and
an empty caption, for every backend and input — not an error. -/
theorem infer_file_top_k_zero (backend : BackendModel) (file : String)
    (bytes : List ℕ) :
    (infer_file backend file bytes ⟨0⟩).tags = [] ∧
    (infer_file backend file bytes ⟨0⟩).caption = "" := by
  have htags : topTags
      (sortSims (simsOf (backend.embed_audio bytes) (backend.embed_text DEFAULT_TAGS)))
      DEFAULT_TAGS (0 : ℕ) = [] := by
    unfold topTags
    rw [Nat.zero_min, List.take_zero, List.map_nil]
  constructor
  · show topTags _ _ _ = []
    exact htags
  · show String.intercalate ", "
      (topTags (sortSims (simsOf (backend.embed_audio bytes)
        (backend.embed_text DEFAULT_TAGS))) DEFAULT_TAGS 0) = ""
    rw [htags]
    rfl

/-! ## Theorems about the ranking order (C5) -/

theorem pair_sublist_range {i j n : ℕ} (hij : i < j) (hj : j < n) :
    List.Sublist [i, j] (List.range n) := by
  have hsplit : List.range' 0 (i + 1) 1 ++ List.range' (i + 1) (n - i - 1) 1 =
      List.range' 0 n 1 := by
    have h := List.range'_append 0 (i + 1) (n - i - 1) 1
    rw [show 0 + 1 * (i + 1) = i + 1 by omega] at h
    rw [show n - i - 1 + (i + 1) = n by omega] at h
    exact h
  rw [List.range_eq_range', ← hsplit]
  have h1 : List.Sublist [i] (List.range' 0 (i + 1) 1) := by
    rw [List.singleton_sublist, List.mem_range']
    exact ⟨i, by omega, by omega⟩
  have h2 : List.Sublist [j] (List.range' (i + 1) (n - i - 1) 1) := by
    rw [List.singleton_sublist, List.mem_range']
    exact ⟨j - i - 1, by omega, by omega⟩
  exact h1.append h2

theorem simsOf_length (audio_emb : List ℝ) (text_embs : List (List ℝ)) :
    (simsOf audio_emb text_embs).length = text_embs.length := by
  simp [simsOf, List.enum]

theorem simsOf_eq_map_range (audio_emb : List ℝ) (text_embs : List (List ℝ)) :
    simsOf audio_emb text_embs =
      (List.range text_embs.length).map
        (fun (i : ℕ) => (i, cosine audio_emb (text_embs.getD i []))) := by
  apply List.ext_getElem
  · rw [simsOf_length, List.length_map, List.length_range]
  · intro i h1 h2
    have hi : i < text_embs.length := by
      rw [simsOf_length] at h1
      exact h1
    simp only [simsOf, List.enum, List.getElem_map, List.getElem_range]
    rw [List.getElem_enumFrom]
    simp only [Nat.zero_add]
    rw [List.getD_eq_getElem?_getD, List.getElem?_eq_getElem hi]
    rfl

theorem map_getD_range_self (l : List String) :
    (List.range l.length).map (fun (i : ℕ) => l.getD i "") = l := by
  apply List.ext_getElem
  · rw [List.length_map, List.length_range]
  · intro i h1 h2
    simp only [List.getElem_map, List.getElem_range]
    rw [List.getD_eq_getElem?_getD, List.getElem?_eq_getElem h2]
    rfl

/-- C5: the ranker sorts the candidates so that similarities are descending
(`Pairwise`), candidates with equal similarity keep their vocabulary
enumeration order (stability, as a pair-sublist statement), and for any
`top_k` at least the vocabulary size the returned tag list is the whole
vocabulary read off in that sorted order (a permutation of the vocabulary). -/
theorem ranker_order (audio_emb : List ℝ) (text_embs : List (List ℝ)) (k : ℕ)
    (hlen : text_embs.length = DEFAULT_TAGS.length)
    (hk : DEFAULT_TAGS.length ≤ k) :
    List.Pairwise (fun (x y : ℕ × ℝ) => y.2 ≤ x.2)
      (sortSims (simsOf audio_emb text_embs)) ∧
    (∀ i j : ℕ, i < j → j < text_embs.length →
      cosine audio_emb (text_embs.getD i []) = cosine audio_emb (text_embs.getD j []) →
      List.Sublist
        [(i, cosine audio_emb (text_embs.getD i [])),
         (j, cosine audio_emb (text_embs.getD j []))]
        (sortSims (simsOf audio_emb text_embs))) ∧
    topTags (sortSims (simsOf audio_emb text_embs)) DEFAULT_TAGS k =
      (sortSims (simsOf audio_emb text_embs)).map
        (fun (p : ℕ × ℝ) => DEFAULT_TAGS.getD p.1 "") ∧
    (topTags (sortSims (simsOf audio_emb text_embs)) DEFAULT_TAGS k).Perm
      DEFAULT_TAGS := by
  have htrans : ∀ a b c : ℕ × ℝ, decide (b.2 ≤ a.2) → decide (c.2 ≤ b.2) →
      decide (c.2 ≤ a.2) := by
    intro a b c hab hbc
    simp only [decide_eq_true_eq] at *
    exact le_trans hbc hab
  have htotal : ∀ a b : ℕ × ℝ, decide (b.2 ≤ a.2) || decide (a.2 ≤ b.2) := by
    intro a b
    rcases le_total b.2 a.2 with h | h
    · simp [h]
    · simp [h]
  have hsortlen : (sortSims (simsOf audio_emb text_embs)).length =
      text_embs.length := by
    unfold sortSims
    rw [List.length_mergeSort, simsOf_length]
  refine ⟨?_, ?_, ?_, ?_⟩
  · exact (List.sorted_mergeSort htrans htotal (simsOf audio_emb text_embs)).imp
      (fun h => of_decide_eq_true h)
  · intro i j hij hj heq
    have hsub : List.Sublist
        [(i, cosine audio_emb (text_embs.getD i [])),
         (j, cosine audio_emb (text_embs.getD j []))]
        (simsOf audio_emb text_embs) := by
      rw [simsOf_eq_map_range]
      have := (pair_sublist_range hij hj).map
        (fun (m : ℕ) => (m, cosine audio_emb (text_embs.getD m [])))
      exact this
    exact List.pair_sublist_mergeSort htrans htotal
      (by rw [heq]; simp) hsub
  · unfold topTags
    rw [hsortlen, hlen, Nat.min_eq_right hk, ← hlen, ← hsortlen,
      List.take_length]
  · unfold topTags
    rw [hsortlen, hlen, Nat.min_eq_right hk, ← hlen, ← hsortlen,
      List.take_length]
    have hperm : (sortSims (simsOf audio_emb text_embs)).Perm
        (simsOf audio_emb text_embs) := List.mergeSort_perm _ _
    refine (hperm.map (fun (p : ℕ × ℝ) => DEFAULT_TAGS.getD p.1 "")).trans ?_
    rw [simsOf_eq_map_range, List.map_map]
    rw [show ((fun (p : ℕ × ℝ) => DEFAULT_TAGS.getD p.1 "") ∘
        fun (i : ℕ) => (i, cosine audio_emb (text_embs.getD i []))) =
        fun (i : ℕ) => DEFAULT_TAGS.getD i "" from rfl]
    rw [hlen, map_getD_range_self]

/-- Witness for C5: twenty empty candidate embeddings against an empty audio
embedding, with `top_k = 20`. -/
theorem ranker_order_witness :
    List.Pairwise (fun (x y : ℕ × ℝ) => y.2 ≤ x.2)
      (sortSims (simsOf [] (List.replicate 20 ([] : List ℝ)))) ∧
    (∀ i j : ℕ, i < j → j < (List.replicate 20 ([] : List ℝ)).length →
      cosine [] ((List.replicate 20 ([] : List ℝ)).getD i []) =
        cosine [] ((List.replicate 20 ([] : List ℝ)).getD j []) →
      List.Sublist
        [(i, cosine [] ((List.replicate 20 ([] : List ℝ)).getD i [])),
         (j, cosine [] ((List.replicate 20 ([] : List ℝ)).getD j []))]
        (sortSims (simsOf [] (List.replicate 20 ([] : List ℝ))))) ∧
    topTags (sortSims (simsOf [] (List.replicate 20 ([] : List ℝ))))
        DEFAULT_TAGS 20 =
      (sortSims (simsOf [] (List.replicate 20 ([] : List ℝ)))).map
        (fun (p : ℕ × ℝ) => DEFAULT_TAGS.getD p.1 "") ∧
    (topTags (sortSims (simsOf [] (List.replicate 20 ([] : List ℝ))))
        DEFAULT_TAGS 20).Perm DEFAULT_TAGS :=
  ranker_order [] (List.replicate 20 ([] : List ℝ)) 20 rfl (by decide)

/-! ## Theorems about invalid input paths (C9) -/

theorem expand_error_of_invalid (fs : FS) : ∀ paths : List String,
    (∃ p ∈ paths, fs.isFile p = false ∧ fs.isDir p = false) →
    ∃ msg, expand_audio_files fs paths = Except.error msg := by
  intro paths
  induction paths with
  | nil =>
      rintro ⟨p, hp, -⟩
      exact absurd hp (List.not_mem_nil p)
  | cons q rest ih =>
      rintro ⟨p, hp, hpf, hpd⟩
      by_cases hqf : fs.isFile q = true
      · have hpr : p ∈ rest := by
          rcases List.mem_cons.mp hp with h1 | h1
          · rw [h1, hqf] at hpf
            exact absurd hpf (by simp)
          · exact h1
        obtain ⟨msg, hm⟩ := ih ⟨p, hpr, hpf, hpd⟩
        refine ⟨msg, ?_⟩
        simp only [expand_audio_files]
        rw [if_pos hqf, hm]
      · by_cases hqd : fs.isDir q = true
        · have hpr : p ∈ rest := by
            rcases List.mem_cons.mp hp with h1 | h1
            · rw [h1, hqd] at hpd
              exact absurd hpd (by simp)
            · exact h1
          obtain ⟨msg, hm⟩ := ih ⟨p, hpr, hpf, hpd⟩
          refine ⟨msg, ?_⟩
          simp only [expand_audio_files]
          rw [if_neg hqf, if_pos hqd, hm]
        · refine ⟨"Path not found: " ++ q, ?_⟩
          simp only [expand_audio_files]
          rw [if_neg hqf, if_neg hqd]

/-- C9: when any input path is neither an existing file nor an existing
directory, file discovery itself (`expand_audio_files`) reports the
invalid-input-path error, and the whole `infer_paths` invocation fails with
that error — no `FileCaption` result is ever produced, for any backend and
configuration. -/
theorem infer_paths_invalid_path (fs : FS) (backend : BackendModel)
    (paths : List String) (cfg : InferenceConfig)
    (h : ∃ p ∈ paths, fs.isFile p = false ∧ fs.isDir p = false) :
    (∃ msg, expand_audio_files fs paths = Except.error msg) ∧
    (∃ msg, infer_paths fs backend paths cfg = Except.error msg) := by
  obtain ⟨msg, hm⟩ := expand_error_of_invalid fs paths h
  refine ⟨⟨msg, hm⟩, ⟨msg, ?_⟩⟩
  unfold infer_paths
  rw [hm]
  rfl

/-- Witness for C9: a one-element path list whose entry exists neither as a
file nor as a directory, against the dummy backend. -/
theorem infer_paths_invalid_path_witness :
    (∃ msg, expand_audio_files
      ⟨fun _ => false, fun _ => false, fun _ => [], fun _ => []⟩
      ["missing.wav"] = Except.error msg) ∧
    (∃ msg, infer_paths
      ⟨fun _ => false, fun _ => false, fun _ => [], fun _ => []⟩
      dummyBackend ["missing.wav"] ⟨3⟩ = Except.error msg) :=
  infer_paths_invalid_path
    ⟨fun _ => false, fun _ => false, fun _ => [], fun _ => []⟩
    dummyBackend ["missing.wav"] ⟨3⟩
    ⟨"missing.wav", List.mem_singleton.mpr rfl, rfl, rfl⟩

end Clapety
